import Mathlib

/-!
# BasicDynamicsProcessor: the downward expander of `Source/DynamicsProcessor.h`

A shallow embedding of the `dsp` namespace of `Source/DynamicsProcessor.h`.

* `float` is an arbitrary linearly ordered field `α` with exact arithmetic (rounding,
  overflow and NaN inputs are outside the model).  The definitions are computable: over `ℚ`
  they evaluate, over `ℝ` they carry the statements about continuity and derivatives.
* A float division whose divisor is zero yields an infinity or a NaN in the program.  The only
  division by a variable is the knee coefficient of `transferFunc::downwardsExpander`; its
  divisor `2 * knee` is zero only for `knee = 0`, where the knee branch is reached only by
  `x = threshold`, so the coefficient is multiplied by the squared distance `0` and the value
  returned is a NaN.  That value is `none`, and `none` propagates through arithmetic like a NaN.
* `std::vector<float> buffer` is a `List α`; an access outside the vector has no defined
  behaviour in the program and is a `Fault` here.
* A block `(smpls, numSamples)` is the list of its `numSamples` samples.
-/

namespace dsp

variable {α : Type} [LinearOrderedField α]

/-- External functions: the ones `DynamicsProcessor.h` calls and does not define. -/
structure Ext (α : Type) where
  /-- Library `std::log10` of `<cmath>`. -/
  log10 : α → α
  /-- Library `std::pow` of `<cmath>`. -/
  pow : α → α → α
  /-- Modelled from the spec: `getXFromMs` of the absent `Lowpass.h`, the helper that "converts a
  time constant in milliseconds plus a sample rate into a coefficient"; the spec leaves its
  formula open, so it is a parameter. -/
  getXFromMs : α → α → α

/-- Source `static constexpr float MinDb = -240.f;` -/
def MinDb : α := -240

/-- Source `dbToGain`: `std::pow(10.f, db / 20.f)`. -/
def dbToGain (E : Ext α) (db : α) : α :=
  E.pow 10 (db / 20)

/-- Source `gainToDb`: `20.f * std::log10(gain)`. -/
def gainToDb (E : Ext α) (gain : α) : α :=
  20 * E.log10 gain

/-- The float division `a / b`: `none` when the divisor is zero. -/
def fdiv (a b : α) : Option α :=
  if b = 0 then none else some (a / b)

namespace transferFunc

/-- Source `transferFunc::downwardsExpander`. -/
def downwardsExpander (x threshold ratio knee : α) : Option α :=
  let k2 := knee * (1 / 2)
  let t0 := threshold - k2
  if x < t0 then
    some (ratio * (x - threshold) + threshold)
  else
    let t1 := threshold + k2
    if x > t1 then
      some x
    else
      let x0 := x - t1
      let x0 := x0 * x0
      (fdiv (-(ratio - 1)) (2 * knee)).map fun m => x + m * x0

/-- Source `transferFunc::computeGainDb`. -/
def computeGainDb (transferCurve level : α) : α :=
  transferCurve - level

/-- Source `transferFunc::computeGainDbDownwardsExpander`. -/
def computeGainDbDownwardsExpander (level threshold ratio knee : α) : Option α :=
  (downwardsExpander level threshold ratio knee).map fun tc => computeGainDb tc level

end transferFunc

/-- A memory fault: an element access outside its container, which the program performs
unchecked.  `bufferIndex s` is `buffer[s]` with `s` no index of the scratch buffer of a
`LevelDetector`; `dynsIndex ch` is `dyns[ch]` with `ch` no index of the array `dyns`. -/
inductive Fault where
  | bufferIndex (s : Nat)
  | dynsIndex (ch : Nat)
  deriving DecidableEq, Repr

/-- Library `std::vector<float>::resize(n)`: the first `n` elements are kept, missing ones are zero. -/
def vectorResize (buffer : List α) (n : Nat) : List α :=
  buffer.take n ++ List.replicate (n - buffer.length) 0

/-- Modelled from the spec: the state of `LowpassF` of the absent `Lowpass.h`, "one persistent
scalar (the filtered output) plus a currently-selected coefficient". -/
structure LowpassF (α : Type) where
  y : α
  x : α

namespace LowpassF

/-- Modelled from the spec: the constructor `LowpassF(startVal)` of the absent `Lowpass.h`; the
persistent scalar starts at `startVal` ("resets to the floor value on construction").  The
coefficient held before the first `setX` is not specified and is the parameter `x0`. -/
def ctor (startVal x0 : α) : LowpassF α :=
  { y := startVal, x := x0 }

/-- Modelled from the spec: `setX` of the absent `Lowpass.h`, "sets the coefficient used for
the next step". -/
def setX (lp : LowpassF α) (x : α) : LowpassF α :=
  { lp with x := x }

/-- Modelled from the spec: `operator()` of the absent `Lowpass.h`, "applying the filter to an
input value `v` produces `y = y_prev + coefficient * (v - y_prev)`, stores and returns `y`". -/
def call (lp : LowpassF α) (v : α) : α × LowpassF α :=
  let y := lp.y + lp.x * (v - lp.y)
  (y, { lp with y := y })

end LowpassF

/-- Source `struct LevelDetector`. -/
structure LevelDetector (α : Type) where
  buffer : List α
  lp : LowpassF α
  sampleRate : α
  atkX : α
  rlsX : α
  env : α

namespace LevelDetector

/-- Source `LevelDetector()`; `x0` is the coefficient `lp` holds before its first `setX`. -/
def ctor (x0 : α) : LevelDetector α :=
  { buffer := [], lp := LowpassF.ctor MinDb x0, sampleRate := 1, atkX := 0, rlsX := 0,
    env := MinDb }

/-- Source `LevelDetector::prepare`; `blockSize` is the element count handed to `resize`. -/
def prepare (d : LevelDetector α) (_sampleRate : α) (blockSize : Nat) : LevelDetector α :=
  { d with sampleRate := _sampleRate, buffer := vectorResize d.buffer blockSize }

/-- The local `rectDb` of `LevelDetector::synthesize`. -/
def rectDb (E : Ext α) (smpl : α) : α :=
  let rect := |smpl|
  if rect = 0 then MinDb else gainToDb E rect

/-- Source `LevelDetector::synthesize`: the returned value and the detector it leaves. -/
def synthesize (E : Ext α) (d : LevelDetector α) (smpl : α) : α × LevelDetector α :=
  let rectDb := rectDb E smpl
  let lp := if d.env < rectDb then d.lp.setX d.atkX else d.lp.setX d.rlsX
  let r := lp.call rectDb
  (r.1, { d with lp := r.2, env := r.1 })

/-- The loop `for (auto s = 0; s < numSamples; ++s) buffer[s] = synthesize(smpls[s]);` from
index `s` on, over the samples still to come. -/
def loop (E : Ext α) : LevelDetector α → Nat → List α → Except Fault (LevelDetector α)
  | d, _, [] => .ok d
  | d, s, smpl :: rest =>
    let r := synthesize E d smpl
    if s < r.2.buffer.length then
      loop E { r.2 with buffer := r.2.buffer.set s r.1 } (s + 1) rest
    else
      .error (.bufferIndex s)

/-- Source `LevelDetector::operator()`, the detector's `process`. -/
def process (E : Ext α) (d : LevelDetector α) (smpls : List α) (atkMs rlsMs : α) :
    Except Fault (LevelDetector α) :=
  let d := { d with atkX := E.getXFromMs atkMs d.sampleRate }
  let d := { d with rlsX := E.getXFromMs rlsMs d.sampleRate }
  loop E d 0 smpls

/-- Source `LevelDetector::data`. -/
def data (d : LevelDetector α) : List α :=
  d.buffer

end LevelDetector

/-- Source `struct DynamicsProcessorMono`. -/
structure DynamicsProcessorMono (α : Type) where
  lvlDetector : LevelDetector α

namespace DynamicsProcessorMono

/-- Source `DynamicsProcessorMono()`. -/
def ctor (x0 : α) : DynamicsProcessorMono α :=
  { lvlDetector := LevelDetector.ctor x0 }

/-- Source `DynamicsProcessorMono::prepare`. -/
def prepare (m : DynamicsProcessorMono α) (sampleRate : α) (blockSize : Nat) :
    DynamicsProcessorMono α :=
  { lvlDetector := m.lvlDetector.prepare sampleRate blockSize }

/-- The body of the second loop of `DynamicsProcessorMono::operator()`: the sample written back
for the dry sample `dry` and the level `lvl`. -/
def wet (E : Ext α) (thresholdDb ratioDb kneeDb dry lvl : α) : Option α :=
  let gainDownwardsExpanderDb :=
    transferFunc.computeGainDbDownwardsExpander lvl thresholdDb ratioDb kneeDb
  let gain := gainDownwardsExpanderDb.map (dbToGain E)
  gain.map fun g => dry * g

/-- The second loop of `DynamicsProcessorMono::operator()` from index `s` on: the samples
written back. -/
def loop (E : Ext α) (lvlData : List α) (thresholdDb ratioDb kneeDb : α) :
    Nat → List α → Except Fault (List (Option α))
  | _, [] => .ok []
  | s, dry :: rest =>
    match lvlData[s]? with
    | none => .error (.bufferIndex s)
    | some lvl =>
      match loop E lvlData thresholdDb ratioDb kneeDb (s + 1) rest with
      | .error f => .error f
      | .ok out => .ok (wet E thresholdDb ratioDb kneeDb dry lvl :: out)

/-- Source `DynamicsProcessorMono::operator()`, the channel's `process`: the processor it leaves and
the block it writes back. -/
def process (E : Ext α) (m : DynamicsProcessorMono α) (smpls : List α)
    (thresholdDb ratioDb kneeDb attackMs releaseMs : α) :
    Except Fault (DynamicsProcessorMono α × List (Option α)) :=
  match m.lvlDetector.process E smpls attackMs releaseMs with
  | .error f => .error f
  | .ok det =>
    let lvlData := det.data
    match loop E lvlData thresholdDb ratioDb kneeDb 0 smpls with
    | .error f => .error f
    | .ok out => .ok ({ lvlDetector := det }, out)

end DynamicsProcessorMono

/-- Source `struct DynamicsProcessor`; `dyns` is the `std::array<DynamicsProcessorMono, 2>`. -/
structure DynamicsProcessor (α : Type) where
  dyns : List (DynamicsProcessorMono α)

namespace DynamicsProcessor

/-- Source `DynamicsProcessor()`. -/
def ctor (x0 : α) : DynamicsProcessor α :=
  { dyns := List.replicate 2 (DynamicsProcessorMono.ctor x0) }

/-- Source `DynamicsProcessor::prepare`. -/
def prepare (p : DynamicsProcessor α) (sampleRate : α) (blockSize : Nat) :
    DynamicsProcessor α :=
  { dyns := p.dyns.map fun dyn => dyn.prepare sampleRate blockSize }

/-- The first loop of `DynamicsProcessor::operator()` from channel `ch` on, over the channel
blocks still to come: the array it leaves and the blocks written back. -/
def loop (E : Ext α) (thresholdDb ratioDb kneeDb attackMs releaseMs : α) :
    List (DynamicsProcessorMono α) → Nat → List (List α) →
      Except Fault (List (DynamicsProcessorMono α) × List (List (Option α)))
  | dyns, _, [] => .ok (dyns, [])
  | dyns, ch, smpls :: rest =>
    match dyns[ch]? with
    | none => .error (.dynsIndex ch)
    | some dyn =>
      match dyn.process E smpls thresholdDb ratioDb kneeDb attackMs releaseMs with
      | .error f => .error f
      | .ok r =>
        match loop E thresholdDb ratioDb kneeDb attackMs releaseMs (dyns.set ch r.1) (ch + 1)
            rest with
        | .error f => .error f
        | .ok q => .ok (q.1, r.2 :: q.2)

/-- The second loop nest of `DynamicsProcessor::operator()`: `samples[ch][s] *= makeUp`. -/
def applyMakeUp (makeUp : α) (samples : List (List (Option α))) : List (List (Option α)) :=
  samples.map fun smpls => smpls.map fun smpl => smpl.map fun v => v * makeUp

/-- Source `DynamicsProcessor::operator()`, the processor's `process`; `samples` lists the
`numChannels` channel blocks. -/
def process (E : Ext α) (p : DynamicsProcessor α) (samples : List (List α))
    (thresholdDb ratioDb kneeDb attackMs releaseMs makeupDb : α) :
    Except Fault (DynamicsProcessor α × List (List (Option α))) :=
  match loop E thresholdDb ratioDb kneeDb attackMs releaseMs p.dyns 0 samples with
  | .error f => .error f
  | .ok q =>
    let makeUp := dbToGain E makeupDb
    .ok ({ dyns := q.1 }, applyMakeUp makeUp q.2)

end DynamicsProcessor

/-! ### The detector as the spec words it -/

/-- The rectified level of the spec: `MinDb` for a sample that is exactly zero, otherwise
`20 * log10 |sample|`. -/
def specLevel (E : Ext α) (smpl : α) : α :=
  if smpl = 0 then MinDb else 20 * E.log10 |smpl|

/-- The coefficient of the spec: attack exactly when the held envelope is strictly below the
rectified level, release otherwise. -/
def specCoeff (atk rls held level : α) : α :=
  if held < level then atk else rls

/-- The envelopes of the spec for a block: each sample advances the filter value `y` one step
`y + c * (level - y)`, and the result is the next held envelope and the next filter value. -/
def specEnvelopes (E : Ext α) (atk rls : α) : α → α → List α → List α
  | _, _, [] => []
  | held, y, smpl :: rest =>
    let level := specLevel E smpl
    let e := y + specCoeff atk rls held level * (level - y)
    e :: specEnvelopes E atk rls e e rest

/-! ### Closed forms used in the proofs (no part of the program) -/

/-- The curve of a knee `K ≠ 0` in closed form: the identity, minus the knee quadratic where
the level is below the upper knee boundary, plus the same quadratic where it is below the
lower one. -/
def kneeCurve (T r K x : α) : α :=
  x - (r - 1) / (2 * K) * (min (x - (T + K / 2)) 0) ^ 2
    + (r - 1) / (2 * K) * (min (x - (T - K / 2)) 0) ^ 2

/-- The slope of `kneeCurve`. -/
def kneeSlope (T r K x : α) : α :=
  1 - (r - 1) / (2 * K) * (2 * min (x - (T + K / 2)) 0)
    + (r - 1) / (2 * K) * (2 * min (x - (T - K / 2)) 0)

/-- Concrete stand-ins for the external functions, for evaluating the model on rationals:
`log10` is right at `1` and `10`, `pow` is right at the exponents `0` and `1`, and `getXFromMs`
is the instantaneous coefficient `1` at `0` ms and `1 / 2` otherwise. -/
def E0 : Ext ℚ :=
  { log10 := fun v => if v = 10 then 1 else 0
    pow := fun b e => if e = 1 then b else 1
    getXFromMs := fun ms _ => if ms = 0 then 1 else 1 / 2 }

end dsp

namespace dsp

variable {α : Type} [LinearOrderedField α]

open transferFunc

/-! ### The transfer curve -/

/-- The knee coefficient is evaluated with a zero divisor exactly on the knee branch of a zero
knee, which is the single level `x = threshold`. -/
theorem downwardsExpander_knee_zero_eq_none_iff (x threshold ratio : α) :
    downwardsExpander x threshold ratio 0 = none ↔ x = threshold := by
  unfold downwardsExpander fdiv
  simp only [zero_mul, mul_zero, sub_zero, add_zero]
  constructor
  · intro h
    by_contra hne
    rcases lt_or_gt_of_ne hne with hlt | hgt
    · simp [hlt] at h
    · simp [not_lt.mpr hgt.le, hgt] at h
  · rintro rfl
    simp

/-- With a positive knee the divisor `2 * knee` is not zero and the curve has a value. -/
theorem downwardsExpander_isSome_of_knee_pos (x threshold ratio knee : α) (hK : 0 < knee) :
    (downwardsExpander x threshold ratio knee).isSome = true := by
  have h2 : (2 : α) * knee ≠ 0 := by positivity
  unfold downwardsExpander fdiv
  simp only [h2, if_false]
  split_ifs <;> simp

/-- C1 (the code misses a case): for knee = 0 and the level equal to the threshold, neither
region test of `downwardsExpander` holds, the knee branch is reached and the knee coefficient
`-(ratio - 1) / (2 * knee)` is evaluated with the divisor `2 * 0`; the curve value is not a
number. -/
theorem downwardsExpander_knee_zero_at_threshold (threshold ratio : α) :
    downwardsExpander threshold threshold ratio 0 = none := by
  simp [downwardsExpander, fdiv]

/-- The three regions of `downwardsExpander`, with the half knee written `knee / 2`. -/
theorem downwardsExpander_eq (x T r K : α) :
    downwardsExpander x T r K =
      if x < T - K / 2 then some (r * (x - T) + T)
      else if T + K / 2 < x then some x
      else if K = 0 then none
      else some (x - ((r - 1) / (2 * K)) * (x - (T + K / 2)) ^ 2) := by
  have hk2 : K * (1 / 2) = K / 2 := by ring
  unfold downwardsExpander fdiv
  simp only [hk2, gt_iff_lt]
  by_cases h0 : x < T - K / 2
  · rw [if_pos h0, if_pos h0]
  · rw [if_neg h0, if_neg h0]
    by_cases h1 : T + K / 2 < x
    · rw [if_pos h1, if_pos h1]
    · rw [if_neg h1, if_neg h1]
      by_cases hK : K = 0
      · subst hK
        simp
      · have h2 : (2 : α) * K ≠ 0 := mul_ne_zero two_ne_zero hK
        rw [if_neg h2, if_neg hK, Option.map_some']
        congr 1
        ring

/-- The gain is the curve value minus the level. -/
theorem computeGainDbDownwardsExpander_eq (x T r K : α) :
    computeGainDbDownwardsExpander x T r K =
      (downwardsExpander x T r K).map (fun out => out - x) :=
  rfl

/-- C2: for a knee `K ≥ 0`, `downwardsExpander x T r K` is `r * (x - T) + T` below the knee,
`x` above the knee and, for `K > 0`, `x - ((r - 1) / (2 * K)) * (x - (T + K / 2)) ^ 2` inside
the knee; `computeGainDbDownwardsExpander` is that value minus `x`; at `T = -20`, `r = 4`,
`K = 0`, `x = -40` the curve is `-100` and the gain is `-60`. -/
theorem downwardsExpander_regions (x T r K : α) (hK : 0 ≤ K) :
    (x < T - K / 2 →
      downwardsExpander x T r K = some (r * (x - T) + T) ∧
      computeGainDbDownwardsExpander x T r K = some (r * (x - T) + T - x)) ∧
    (x > T + K / 2 →
      downwardsExpander x T r K = some x ∧
      computeGainDbDownwardsExpander x T r K = some (x - x)) ∧
    (0 < K → T - K / 2 ≤ x → x ≤ T + K / 2 →
      downwardsExpander x T r K = some (x - ((r - 1) / (2 * K)) * (x - (T + K / 2)) ^ 2) ∧
      computeGainDbDownwardsExpander x T r K =
        some (x - ((r - 1) / (2 * K)) * (x - (T + K / 2)) ^ 2 - x)) ∧
    computeGainDbDownwardsExpander x T r K =
      (downwardsExpander x T r K).map (fun out => out - x) ∧
    downwardsExpander (-40 : α) (-20) 4 0 = some (-100) ∧
    computeGainDbDownwardsExpander (-40 : α) (-20) 4 0 = some (-60) := by
  refine ⟨?_, ?_, ?_, rfl, ?_, ?_⟩
  · intro h
    have e : downwardsExpander x T r K = some (r * (x - T) + T) := by
      rw [downwardsExpander_eq, if_pos h]
    exact ⟨e, by rw [computeGainDbDownwardsExpander_eq, e, Option.map_some']⟩
  · intro h
    have h0 : ¬ x < T - K / 2 := not_lt.mpr (by linarith)
    have e : downwardsExpander x T r K = some x := by
      rw [downwardsExpander_eq, if_neg h0, if_pos h]
    exact ⟨e, by rw [computeGainDbDownwardsExpander_eq, e, Option.map_some']⟩
  · intro hpos h0 h1
    have e : downwardsExpander x T r K =
        some (x - ((r - 1) / (2 * K)) * (x - (T + K / 2)) ^ 2) := by
      rw [downwardsExpander_eq, if_neg (not_lt.mpr h0), if_neg (not_lt.mpr h1),
        if_neg hpos.ne']
    exact ⟨e, by rw [computeGainDbDownwardsExpander_eq, e, Option.map_some']⟩
  · rw [downwardsExpander_eq, if_pos (by norm_num)]
    norm_num
  · rw [computeGainDbDownwardsExpander_eq, downwardsExpander_eq, if_pos (by norm_num)]
    norm_num

/-- An instance of C2: the concrete scenario of the spec, on rationals. -/
theorem downwardsExpander_regions_witness :
    (0 : ℚ) ≤ 0 ∧
    ((-40 : ℚ) < -20 - 0 / 2 →
      downwardsExpander (-40 : ℚ) (-20) 4 0 = some (4 * (-40 - -20) + -20) ∧
      computeGainDbDownwardsExpander (-40 : ℚ) (-20) 4 0 =
        some (4 * (-40 - -20) + -20 - -40)) :=
  ⟨le_refl 0, (downwardsExpander_regions (-40 : ℚ) (-20) 4 0 (le_refl 0)).1⟩

/-- With ratio 1 the gain is `0` dB at every level, except at the one point where the curve
has no value: knee `0` and the level equal to the threshold. -/
theorem computeGainDb_ratio_one (x T K : α) :
    computeGainDbDownwardsExpander x T 1 K = if K = 0 ∧ x = T then none else some 0 := by
  rw [computeGainDbDownwardsExpander_eq, downwardsExpander_eq]
  by_cases h0 : x < T - K / 2
  · have hne : ¬ (K = 0 ∧ x = T) := by
      rintro ⟨rfl, rfl⟩
      simp at h0
    rw [if_pos h0, if_neg hne, Option.map_some']
    congr 1
    ring
  · rw [if_neg h0]
    by_cases h1 : T + K / 2 < x
    · have hne : ¬ (K = 0 ∧ x = T) := by
        rintro ⟨rfl, rfl⟩
        simp at h1
      rw [if_pos h1, if_neg hne, Option.map_some']
      congr 1
      ring
    · rw [if_neg h1]
      by_cases hK : K = 0
      · subst hK
        have hx : x = T := by
          simp only [zero_div, sub_zero, add_zero, not_lt] at h0 h1
          exact le_antisymm h1 h0
        rw [if_pos rfl, if_pos ⟨rfl, hx⟩, Option.map_none']
      · rw [if_neg hK, if_neg (fun h => hK h.1), Option.map_some']
        congr 1
        simp

/-- For a ratio above 1 and a knee `K ≥ 0` the gain, where the curve has a value, is at most
`0` dB. -/
theorem computeGainDb_nonpos_of_some (x T r K g : α) (hr : 1 < r) (hK : 0 ≤ K)
    (hg : computeGainDbDownwardsExpander x T r K = some g) : g ≤ 0 := by
  rw [computeGainDbDownwardsExpander_eq, downwardsExpander_eq] at hg
  by_cases h0 : x < T - K / 2
  · rw [if_pos h0, Option.map_some', Option.some.injEq] at hg
    have : (r - 1) * (x - T) ≤ 0 :=
      mul_nonpos_of_nonneg_of_nonpos (by linarith) (by linarith)
    linarith
  · rw [if_neg h0] at hg
    by_cases h1 : T + K / 2 < x
    · rw [if_pos h1, Option.map_some', Option.some.injEq] at hg
      linarith
    · rw [if_neg h1] at hg
      by_cases hK0 : K = 0
      · rw [if_pos hK0] at hg
        simp at hg
      · rw [if_neg hK0, Option.map_some', Option.some.injEq] at hg
        have hpos : 0 < K := lt_of_le_of_ne hK (Ne.symm hK0)
        have hm : 0 ≤ (r - 1) / (2 * K) := div_nonneg (by linarith) (by linarith)
        have : 0 ≤ (r - 1) / (2 * K) * (x - (T + K / 2)) ^ 2 :=
          mul_nonneg hm (sq_nonneg _)
        linarith

/-- C4 (the code misses a case): for ratio `4 > 1`, knee `0 ≥ 0` and the level equal to the
threshold `-20`, `computeGainDbDownwardsExpander` divides by `2 * 0` and returns no number,
so the gain is not `≤ 0` there. -/
theorem computeGainDb_knee_zero_at_threshold :
    (1 : ℚ) < 4 ∧ (0 : ℚ) ≤ 0 ∧
    computeGainDbDownwardsExpander (-20 : ℚ) (-20) 4 0 = none ∧
    ¬ ∃ g, computeGainDbDownwardsExpander (-20 : ℚ) (-20) 4 0 = some g ∧ g ≤ 0 := by
  have e : computeGainDbDownwardsExpander (-20 : ℚ) (-20) 4 0 = none := by
    rw [computeGainDbDownwardsExpander_eq,
      (downwardsExpander_knee_zero_eq_none_iff _ _ _).mpr rfl]
    rfl
  refine ⟨by norm_num, le_refl 0, e, ?_⟩
  rintro ⟨g, hg, -⟩
  rw [e] at hg
  exact Option.noConfusion hg


/-! ### Smoothness of the curve, over the reals -/

/-- The squared negative part `u ↦ (min u 0) ^ 2` has the derivative `2 * min y 0` at `y`. -/
theorem hasDerivAt_sq_min_zero (y : ℝ) :
    HasDerivAt (fun u : ℝ => (min u 0) ^ 2) (2 * min y 0) y := by
  rcases lt_trichotomy y 0 with hy | hy | hy
  · have h1 : HasDerivAt (fun u : ℝ => u ^ 2) (2 * y) y := by
      simpa using hasDerivAt_pow 2 y
    rw [min_eq_left hy.le]
    refine h1.congr_of_eventuallyEq ?_
    filter_upwards [Iio_mem_nhds hy] with u hu
    simp only [min_eq_left (le_of_lt (Set.mem_Iio.mp hu))]
  · subst hy
    have hl : HasDerivWithinAt (fun u : ℝ => (min u 0) ^ 2) (2 * min 0 0) (Set.Iic 0) 0 := by
      have h1 : HasDerivWithinAt (fun u : ℝ => u ^ 2) (2 * min 0 0) (Set.Iic 0) 0 := by
        simpa using (hasDerivAt_pow 2 (0 : ℝ)).hasDerivWithinAt
      refine h1.congr (fun u hu => ?_) (by simp)
      simp only [min_eq_left (Set.mem_Iic.mp hu)]
    have hr : HasDerivWithinAt (fun u : ℝ => (min u 0) ^ 2) (2 * min 0 0) (Set.Ici 0) 0 := by
      have h1 : HasDerivWithinAt (fun _ : ℝ => (0 : ℝ)) (2 * min 0 0) (Set.Ici 0) 0 := by
        simpa using (hasDerivAt_const (0 : ℝ) (0 : ℝ)).hasDerivWithinAt
      refine h1.congr (fun u hu => ?_) (by simp)
      simp only [min_eq_right (Set.mem_Ici.mp hu)]
      norm_num
    have := hl.union hr
    rwa [Set.Iic_union_Ici, hasDerivWithinAt_univ] at this
  · have h1 : HasDerivAt (fun _ : ℝ => (0 : ℝ)) (2 * min y 0) y := by
      rw [min_eq_right hy.le]
      simpa using hasDerivAt_const y (0 : ℝ)
    refine h1.congr_of_eventuallyEq ?_
    filter_upwards [Ioi_mem_nhds hy] with u hu
    simp only [min_eq_right (le_of_lt (Set.mem_Ioi.mp hu))]
    norm_num

theorem downwardsExpander_eq_kneeCurve (T r K : ℝ) (hK : 0 < K) (x : ℝ) :
    downwardsExpander x T r K = some (kneeCurve T r K x) := by
  have hK0 : K ≠ 0 := hK.ne'
  rw [downwardsExpander_eq]
  unfold kneeCurve
  by_cases h0 : x < T - K / 2
  · rw [if_pos h0, min_eq_left (by linarith), min_eq_left (by linarith)]
    congr 1
    field_simp
    ring
  · rw [if_neg h0]
    have h0' : T - K / 2 ≤ x := not_lt.mp h0
    by_cases h1 : T + K / 2 < x
    · rw [if_pos h1, min_eq_right (by linarith), min_eq_right (by linarith)]
      congr 1
      ring
    · rw [if_neg h1, if_neg hK0, min_eq_left (by linarith [not_lt.mp h1]),
        min_eq_right (by linarith)]
      congr 1
      ring

theorem hasDerivAt_kneeCurve (T r K x : ℝ) :
    HasDerivAt (fun x => kneeCurve T r K x) (kneeSlope T r K x) x := by
  have h1 : HasDerivAt (fun x : ℝ => (min (x - (T + K / 2)) 0) ^ 2)
      (2 * min (x - (T + K / 2)) 0) x := by
    have := (hasDerivAt_sq_min_zero (x - (T + K / 2))).comp x
      ((hasDerivAt_id x).sub_const (T + K / 2))
    simpa [Function.comp_def] using this
  have h0 : HasDerivAt (fun x : ℝ => (min (x - (T - K / 2)) 0) ^ 2)
      (2 * min (x - (T - K / 2)) 0) x := by
    have := (hasDerivAt_sq_min_zero (x - (T - K / 2))).comp x
      ((hasDerivAt_id x).sub_const (T - K / 2))
    simpa [Function.comp_def] using this
  exact ((hasDerivAt_id x).sub (h1.const_mul _)).add (h0.const_mul _)

theorem continuous_kneeSlope (T r K : ℝ) : Continuous (fun x : ℝ => kneeSlope T r K x) := by
  unfold kneeSlope
  fun_prop

/-- C5: for a knee `K > 0` the curve `x ↦ downwardsExpander x T r K` always has a value, it is
continuous at `T - K / 2` and at `T + K / 2`, where the knee quadratic and the adjacent linear
segment agree, the knee quadratic has slope `r` at `T - K / 2` and `1` at `T + K / 2`, these are
the derivatives of the curve there, and the derivative of the curve is continuous at both
points. -/
theorem downwardsExpander_smooth_at_knee (T r K : ℝ) (hK : 0 < K) :
    ∃ f : ℝ → ℝ, (∀ x, downwardsExpander x T r K = some (f x)) ∧
      ContinuousAt f (T - K / 2) ∧ ContinuousAt f (T + K / 2) ∧
      (T - K / 2) - (r - 1) / (2 * K) * ((T - K / 2) - (T + K / 2)) ^ 2
        = r * ((T - K / 2) - T) + T ∧
      (T + K / 2) - (r - 1) / (2 * K) * ((T + K / 2) - (T + K / 2)) ^ 2 = T + K / 2 ∧
      HasDerivAt (fun x => x - (r - 1) / (2 * K) * (x - (T + K / 2)) ^ 2) r (T - K / 2) ∧
      HasDerivAt (fun x => x - (r - 1) / (2 * K) * (x - (T + K / 2)) ^ 2) 1 (T + K / 2) ∧
      HasDerivAt f r (T - K / 2) ∧ HasDerivAt f 1 (T + K / 2) ∧
      ContinuousAt (deriv f) (T - K / 2) ∧ ContinuousAt (deriv f) (T + K / 2) := by
  have hK0 : K ≠ 0 := hK.ne'
  have hd : deriv (fun x : ℝ => kneeCurve T r K x) = fun x => kneeSlope T r K x :=
    funext fun x => (hasDerivAt_kneeCurve T r K x).deriv
  have hs0 : kneeSlope T r K (T - K / 2) = r := by
    unfold kneeSlope
    rw [min_eq_left (by linarith), min_eq_right (by linarith)]
    field_simp
    ring
  have hs1 : kneeSlope T r K (T + K / 2) = 1 := by
    unfold kneeSlope
    rw [min_eq_right (by linarith), min_eq_right (by linarith)]
    ring
  have hq : ∀ x : ℝ, HasDerivAt (fun x => x - (r - 1) / (2 * K) * (x - (T + K / 2)) ^ 2)
      (1 - (r - 1) / (2 * K) * (2 * (x - (T + K / 2)))) x := by
    intro x
    have h2 : HasDerivAt (fun x : ℝ => (x - (T + K / 2)) ^ 2) (2 * (x - (T + K / 2))) x := by
      have := (hasDerivAt_pow 2 (x - (T + K / 2))).comp x
        ((hasDerivAt_id x).sub_const (T + K / 2))
      simpa [Function.comp_def] using this
    exact (hasDerivAt_id x).sub (h2.const_mul _)
  refine ⟨fun x => kneeCurve T r K x, downwardsExpander_eq_kneeCurve T r K hK,
    (hasDerivAt_kneeCurve T r K _).continuousAt, (hasDerivAt_kneeCurve T r K _).continuousAt,
    ?_, ?_, ?_, ?_, ?_, ?_, ?_, ?_⟩
  · field_simp
    ring
  · ring
  · have := hq (T - K / 2)
    have e : 1 - (r - 1) / (2 * K) * (2 * (T - K / 2 - (T + K / 2))) = r := by
      field_simp
      ring
    rwa [e] at this
  · have := hq (T + K / 2)
    have e : 1 - (r - 1) / (2 * K) * (2 * (T + K / 2 - (T + K / 2))) = 1 := by
      ring
    rwa [e] at this
  · have := hasDerivAt_kneeCurve T r K (T - K / 2)
    rwa [hs0] at this
  · have := hasDerivAt_kneeCurve T r K (T + K / 2)
    rwa [hs1] at this
  · rw [hd]
    exact (continuous_kneeSlope T r K).continuousAt
  · rw [hd]
    exact (continuous_kneeSlope T r K).continuousAt

/-- An instance of C5: threshold `-20`, ratio `4`, knee `2`. -/
theorem downwardsExpander_smooth_at_knee_witness :
    (0 : ℝ) < 2 ∧
    ∃ f : ℝ → ℝ, (∀ x, downwardsExpander x (-20) 4 2 = some (f x)) ∧
      ContinuousAt f (-20 - 2 / 2) ∧ ContinuousAt f (-20 + 2 / 2) ∧
      ((-20 - 2 / 2) - (4 - 1) / (2 * 2) * ((-20 - 2 / 2) - (-20 + 2 / 2)) ^ 2 : ℝ)
        = 4 * ((-20 - 2 / 2) - -20) + -20 ∧
      ((-20 + 2 / 2) - (4 - 1) / (2 * 2) * ((-20 + 2 / 2) - (-20 + 2 / 2)) ^ 2 : ℝ)
        = -20 + 2 / 2 ∧
      HasDerivAt (fun x : ℝ => x - (4 - 1) / (2 * 2) * (x - (-20 + 2 / 2)) ^ 2) 4 (-20 - 2 / 2) ∧
      HasDerivAt (fun x : ℝ => x - (4 - 1) / (2 * 2) * (x - (-20 + 2 / 2)) ^ 2) 1 (-20 + 2 / 2) ∧
      HasDerivAt f 4 (-20 - 2 / 2) ∧ HasDerivAt f 1 (-20 + 2 / 2) ∧
      ContinuousAt (deriv f) (-20 - 2 / 2) ∧ ContinuousAt (deriv f) (-20 + 2 / 2) :=
  ⟨by norm_num, downwardsExpander_smooth_at_knee (-20) 4 2 (by norm_num)⟩


/-! ### The level detector -/

/-- Writing index `s` and keeping the first `s + 1` elements. -/
theorem take_succ_set_self {β : Type} (b : List β) (s : Nat) (e : β) (h : s < b.length) :
    (b.set s e).take (s + 1) = b.take s ++ [e] := by
  induction b generalizing s with
  | nil => simp at h
  | cons a t ih =>
    cases s with
    | zero => simp
    | succ k =>
      have hk : k < t.length := by simpa using h
      simp [ih k hk]

/-- The local `rectDb` of `synthesize` is the rectified level of the spec. -/
theorem rectDb_eq_specLevel (E : Ext α) (smpl : α) :
    LevelDetector.rectDb E smpl = specLevel E smpl := by
  unfold LevelDetector.rectDb specLevel gainToDb
  by_cases h : smpl = 0
  · simp [h]
  · simp [h, abs_eq_zero]

/-- One call of `synthesize`: the filter advances one step from its value `lp.y` towards the
rectified level, with the attack coefficient exactly when the held envelope is strictly below
that level, and the result is returned, held as `env` and kept as the filter value. -/
theorem synthesize_eq (E : Ext α) (d : LevelDetector α) (smpl : α) :
    LevelDetector.synthesize E d smpl =
      (d.lp.y + specCoeff d.atkX d.rlsX d.env (specLevel E smpl) * (specLevel E smpl - d.lp.y),
       { d with
         lp := { y := d.lp.y + specCoeff d.atkX d.rlsX d.env (specLevel E smpl)
                   * (specLevel E smpl - d.lp.y),
                 x := specCoeff d.atkX d.rlsX d.env (specLevel E smpl) },
         env := d.lp.y + specCoeff d.atkX d.rlsX d.env (specLevel E smpl)
                   * (specLevel E smpl - d.lp.y) }) := by
  unfold LevelDetector.synthesize specCoeff
  rw [rectDb_eq_specLevel]
  by_cases h : d.env < specLevel E smpl
  · simp [h, LowpassF.setX, LowpassF.call]
  · simp [h, LowpassF.setX, LowpassF.call]

/-- The detector loop from index `s` on, when the samples still to come fit in the scratch
buffer. -/
theorem LevelDetector.loop_fits (E : Ext α) (smpls : List α) :
    ∀ (d : LevelDetector α) (s : Nat), s + smpls.length ≤ d.buffer.length →
      ∃ d', LevelDetector.loop E d s smpls = .ok d' ∧
        d'.buffer = d.buffer.take s ++ specEnvelopes E d.atkX d.rlsX d.env d.lp.y smpls
          ++ d.buffer.drop (s + smpls.length) ∧
        d'.env = (specEnvelopes E d.atkX d.rlsX d.env d.lp.y smpls).getLast?.getD d.env ∧
        d'.lp.y = (specEnvelopes E d.atkX d.rlsX d.env d.lp.y smpls).getLast?.getD d.lp.y ∧
        d'.sampleRate = d.sampleRate ∧ d'.atkX = d.atkX ∧ d'.rlsX = d.rlsX := by
  induction smpls with
  | nil =>
    intro d s _
    refine ⟨d, rfl, ?_, rfl, rfl, rfl, rfl, rfl⟩
    simp [specEnvelopes]
  | cons smpl rest ih =>
    intro d s h
    have hs : s < d.buffer.length := by
      simp only [List.length_cons] at h
      omega
    rw [LevelDetector.loop, synthesize_eq]
    simp only [hs, if_true]
    set e := d.lp.y + specCoeff d.atkX d.rlsX d.env (specLevel E smpl)
      * (specLevel E smpl - d.lp.y) with he
    obtain ⟨d', h1, h2, h3, h4, h5, h6, h7⟩ := ih
      { buffer := d.buffer.set s e,
        lp := { y := e, x := specCoeff d.atkX d.rlsX d.env (specLevel E smpl) },
        sampleRate := d.sampleRate, atkX := d.atkX, rlsX := d.rlsX, env := e } (s + 1) (by
          simp only [List.length_set]
          simp only [List.length_cons] at h
          omega)
    refine ⟨d', h1, ?_, ?_, ?_, h5, h6, h7⟩
    · rw [h2]
      simp only [specEnvelopes, List.length_cons]
      rw [take_succ_set_self _ _ _ hs, List.drop_set_of_lt _ _ (by omega), ← he]
      simp only [List.append_assoc, List.singleton_append]
      congr 3
      omega
    · rw [h3]
      simp only [specEnvelopes, List.getLast?_cons, ← he, Option.getD_some]
    · rw [h4]
      simp only [specEnvelopes, List.getLast?_cons, ← he, Option.getD_some]

/-- The detector loop from index `s` on, when the samples still to come do not fit in the
scratch buffer: every index below the buffer length is written, then `buffer[length]` is
accessed. -/
theorem LevelDetector.loop_overruns (E : Ext α) (smpls : List α) :
    ∀ (d : LevelDetector α) (s : Nat), s ≤ d.buffer.length →
      d.buffer.length < s + smpls.length →
      LevelDetector.loop E d s smpls = .error (.bufferIndex d.buffer.length) := by
  induction smpls with
  | nil =>
    intro d s h1 h2
    simp only [List.length_nil] at h2
    omega
  | cons smpl rest ih =>
    intro d s h1 h2
    rw [LevelDetector.loop, synthesize_eq]
    by_cases hs : s < d.buffer.length
    · simp only [hs, if_true]
      rw [ih _ (s + 1) (by simpa using hs) (by
        simp only [List.length_set]
        simp only [List.length_cons] at h2
        omega)]
      simp
    · have hsl : s = d.buffer.length := by omega
      rw [if_neg hs, hsl]

/-- The spec yields one envelope per sample. -/
theorem length_specEnvelopes (E : Ext α) (atk rls : α) (smpls : List α) :
    ∀ held y : α, (specEnvelopes E atk rls held y smpls).length = smpls.length := by
  induction smpls with
  | nil => intro held y; rfl
  | cons smpl rest ih => intro held y; simp [specEnvelopes, ih]

/-- The detector's `process` on a block that fits in the scratch buffer. -/
theorem LevelDetector.process_fits (E : Ext α) (d : LevelDetector α) (smpls : List α)
    (atkMs rlsMs : α) (h : smpls.length ≤ d.buffer.length) :
    ∃ d', d.process E smpls atkMs rlsMs = .ok d' ∧
      d'.buffer = specEnvelopes E (E.getXFromMs atkMs d.sampleRate)
          (E.getXFromMs rlsMs d.sampleRate) d.env d.lp.y smpls
        ++ d.buffer.drop smpls.length ∧
      d'.env = (specEnvelopes E (E.getXFromMs atkMs d.sampleRate)
          (E.getXFromMs rlsMs d.sampleRate) d.env d.lp.y smpls).getLast?.getD d.env ∧
      d'.lp.y = (specEnvelopes E (E.getXFromMs atkMs d.sampleRate)
          (E.getXFromMs rlsMs d.sampleRate) d.env d.lp.y smpls).getLast?.getD d.lp.y ∧
      d'.sampleRate = d.sampleRate ∧
      d'.atkX = E.getXFromMs atkMs d.sampleRate ∧
      d'.rlsX = E.getXFromMs rlsMs d.sampleRate := by
  obtain ⟨d', h1, h2, h3, h4, h5, h6, h7⟩ := LevelDetector.loop_fits E smpls
    { d with atkX := E.getXFromMs atkMs d.sampleRate,
             rlsX := E.getXFromMs rlsMs d.sampleRate } 0 (by simpa using h)
  refine ⟨d', h1, ?_, h3, h4, h5, h6, h7⟩
  rw [h2]
  simp

/-- The detector's `process` on a block longer than the scratch buffer: the access
`buffer[length]` is performed. -/
theorem LevelDetector.process_overruns (E : Ext α) (d : LevelDetector α) (smpls : List α)
    (atkMs rlsMs : α) (h : d.buffer.length < smpls.length) :
    d.process E smpls atkMs rlsMs = .error (.bufferIndex d.buffer.length) :=
  LevelDetector.loop_overruns E smpls
    { d with atkX := E.getXFromMs atkMs d.sampleRate,
             rlsX := E.getXFromMs rlsMs d.sampleRate } 0 (Nat.zero_le _) (by simpa using h)

/-- After a successful `process` the scratch buffer has the length it had. -/
theorem LevelDetector.process_length (E : Ext α) (d d' : LevelDetector α) (smpls : List α)
    (atkMs rlsMs : α) (h : smpls.length ≤ d.buffer.length)
    (hd : d.process E smpls atkMs rlsMs = .ok d') : d'.buffer.length = d.buffer.length := by
  obtain ⟨d'', h1, h2, -⟩ := LevelDetector.process_fits E d smpls atkMs rlsMs h
  rw [hd] at h1
  cases h1
  rw [h2, List.length_append, length_specEnvelopes, List.length_drop]
  omega

/-- After `prepare` the scratch buffer has `blockSize` elements. -/
theorem LevelDetector.length_prepare (d : LevelDetector α) (sampleRate : α) (blockSize : Nat) :
    (d.prepare sampleRate blockSize).buffer.length = blockSize := by
  simp only [LevelDetector.prepare, vectorResize, List.length_append, List.length_take,
    List.length_replicate]
  omega

/-- C10: one call of `synthesize` takes the rectified level `MinDb` for a sample that is exactly
zero and `20 * log10 |sample|` otherwise, selects the attack coefficient exactly when the held
envelope is strictly below that level and the release coefficient otherwise, advances the filter
one step `y + c * (level - y)` and holds and returns the result; `process` on a block that fits
in the scratch buffer does this for each sample in order and stores the result of sample `i` at
scratch index `i`, leaving the last result as the held envelope. -/
theorem LevelDetector.process_refines_spec (E : Ext α) (d : LevelDetector α) (smpls : List α)
    (atkMs rlsMs : α) (h : smpls.length ≤ d.buffer.length) :
    (∀ (d0 : LevelDetector α) (smpl : α),
      (LevelDetector.synthesize E d0 smpl).2.lp.x =
        (if d0.env < (if smpl = 0 then MinDb else 20 * E.log10 |smpl|) then d0.atkX
          else d0.rlsX) ∧
      (LevelDetector.synthesize E d0 smpl).1 =
        d0.lp.y + (LevelDetector.synthesize E d0 smpl).2.lp.x
          * ((if smpl = 0 then MinDb else 20 * E.log10 |smpl|) - d0.lp.y) ∧
      (LevelDetector.synthesize E d0 smpl).2.env = (LevelDetector.synthesize E d0 smpl).1 ∧
      (LevelDetector.synthesize E d0 smpl).2.lp.y = (LevelDetector.synthesize E d0 smpl).1) ∧
    ∃ d', d.process E smpls atkMs rlsMs = .ok d' ∧
      d'.buffer = specEnvelopes E (E.getXFromMs atkMs d.sampleRate)
          (E.getXFromMs rlsMs d.sampleRate) d.env d.lp.y smpls
        ++ d.buffer.drop smpls.length ∧
      (∀ i, i < smpls.length →
        d'.buffer[i]? = (specEnvelopes E (E.getXFromMs atkMs d.sampleRate)
          (E.getXFromMs rlsMs d.sampleRate) d.env d.lp.y smpls)[i]?) ∧
      d'.env = (specEnvelopes E (E.getXFromMs atkMs d.sampleRate)
          (E.getXFromMs rlsMs d.sampleRate) d.env d.lp.y smpls).getLast?.getD d.env ∧
      d'.lp.y = (specEnvelopes E (E.getXFromMs atkMs d.sampleRate)
          (E.getXFromMs rlsMs d.sampleRate) d.env d.lp.y smpls).getLast?.getD d.lp.y := by
  refine ⟨fun d0 smpl => ?_, ?_⟩
  · rw [synthesize_eq]
    exact ⟨rfl, rfl, rfl, rfl⟩
  · obtain ⟨d', h1, h2, h3, h4, -⟩ := LevelDetector.process_fits E d smpls atkMs rlsMs h
    refine ⟨d', h1, h2, fun i hi => ?_, h3, h4⟩
    rw [h2, List.getElem?_append_left (by rw [length_specEnvelopes]; exact hi)]

/-- An instance of C10 on rationals: a fresh detector prepared for two samples and the block
`[0, 1]`, with instantaneous coefficients; the envelopes `-240` and `0` land at indices 0, 1. -/
theorem LevelDetector.process_refines_spec_witness :
    ∃ d', ((LevelDetector.ctor (0 : ℚ)).prepare 48000 2).process E0 [0, 1] 0 0 = .ok d' ∧
      d'.buffer = [-240, 0] ∧ d'.env = 0 ∧ d'.lp.y = 0 := by
  obtain ⟨-, d', h1, h2, -, h3, h4⟩ := LevelDetector.process_refines_spec E0
    ((LevelDetector.ctor (0 : ℚ)).prepare 48000 2) [0, 1] 0 0 (by
      simp [LevelDetector.prepare, LevelDetector.ctor, vectorResize])
  refine ⟨d', h1, ?_, ?_, ?_⟩
  · rw [h2]
    norm_num [specEnvelopes, specLevel, specCoeff, E0, MinDb, LevelDetector.prepare,
      LevelDetector.ctor, LowpassF.ctor, vectorResize]
  · rw [h3]
    norm_num [specEnvelopes, specLevel, specCoeff, E0, MinDb, LevelDetector.prepare,
      LevelDetector.ctor, LowpassF.ctor]
  · rw [h4]
    norm_num [specEnvelopes, specLevel, specCoeff, E0, MinDb, LevelDetector.prepare,
      LevelDetector.ctor, LowpassF.ctor]

/-- C6 (what the code does): after `prepare(sampleRate, blockSize)` a `process` call with
`numSamples ≤ blockSize` succeeds, keeps the scratch buffer at `blockSize` elements and leaves
every index `≥ numSamples` as it was; the code has no check of `numSamples`, and a call with
`numSamples > blockSize` is neither rejected nor clamped: it accesses `buffer[blockSize]`,
outside the buffer. -/
theorem LevelDetector.process_bounds (E : Ext α) (d : LevelDetector α) (sampleRate : α)
    (blockSize : Nat) (smpls : List α) (atkMs rlsMs : α) :
    if smpls.length ≤ blockSize then
      ∃ d', (d.prepare sampleRate blockSize).process E smpls atkMs rlsMs = .ok d' ∧
        d'.buffer.length = blockSize ∧
        ∀ i, smpls.length ≤ i →
          d'.buffer[i]? = (d.prepare sampleRate blockSize).buffer[i]?
    else
      (d.prepare sampleRate blockSize).process E smpls atkMs rlsMs
        = .error (.bufferIndex blockSize) := by
  have hlen := LevelDetector.length_prepare d sampleRate blockSize
  split
  · next h =>
    obtain ⟨d', h1, h2, -⟩ := LevelDetector.process_fits E (d.prepare sampleRate blockSize)
      smpls atkMs rlsMs (by rw [hlen]; exact h)
    refine ⟨d', h1, ?_, fun i hi => ?_⟩
    · rw [LevelDetector.process_length E _ d' smpls atkMs rlsMs (by rw [hlen]; exact h) h1,
        hlen]
    · rw [h2, List.getElem?_append_right (by rw [length_specEnvelopes]; exact hi),
        length_specEnvelopes, List.getElem?_drop]
      congr 1
      omega
  · next h =>
    have := LevelDetector.process_overruns E (d.prepare sampleRate blockSize) smpls atkMs rlsMs
      (by rw [hlen]; omega)
    rw [hlen] at this
    exact this

/-- An instance of C6 on rationals: one sample into a detector prepared for two; the call
returns, the scratch buffer keeps two elements and index 1 is left as it was. -/
theorem LevelDetector.process_bounds_witness :
    ∃ d', ((LevelDetector.ctor (0 : ℚ)).prepare 48000 2).process E0 [1] 0 0 = .ok d' ∧
      d'.buffer.length = 2 ∧
      ∀ i, [(1 : ℚ)].length ≤ i →
        d'.buffer[i]? = ((LevelDetector.ctor (0 : ℚ)).prepare 48000 2).buffer[i]? := by
  have h := LevelDetector.process_bounds E0 (LevelDetector.ctor (0 : ℚ)) 48000 2 [1] 0 0
  rw [if_pos (by simp)] at h
  exact h

/-- C6 (the claim fails): a fresh detector prepared for one sample and a block of two samples;
the call is not rejected and not clamped, index 0 is processed and then `buffer[1]` is accessed,
an index `≥ blockSize`. -/
theorem LevelDetector.process_not_rejected :
    ((LevelDetector.ctor (0 : ℚ)).prepare 48000 1).process E0 [0, 0] 0 0
      = .error (.bufferIndex 1) := by
  simp [LevelDetector.process, LevelDetector.loop, LevelDetector.synthesize,
    LevelDetector.prepare, LevelDetector.ctor, vectorResize]


/-! ### One channel -/

/-- The second loop of the channel's `process` from index `s` on, when the samples still to
come have their levels in `lvlData`: sample and level are combined index by index. -/
theorem DynamicsProcessorMono.loop_zipWith (E : Ext α) (lvlData : List α) (T r K : α)
    (smpls : List α) :
    ∀ s : Nat, s + smpls.length ≤ lvlData.length →
      DynamicsProcessorMono.loop E lvlData T r K s smpls =
        .ok (List.zipWith (DynamicsProcessorMono.wet E T r K) smpls (lvlData.drop s)) := by
  induction smpls with
  | nil =>
    intro s _
    simp [DynamicsProcessorMono.loop]
  | cons dry rest ih =>
    intro s h
    have hs : s < lvlData.length := by
      simp only [List.length_cons] at h
      omega
    rw [DynamicsProcessorMono.loop, List.getElem?_eq_getElem hs]
    simp only
    rw [ih (s + 1) (by simp only [List.length_cons] at h; omega),
      List.drop_eq_getElem_cons hs, List.zipWith_cons_cons]

/-- The channel's `process` on a block that fits in the scratch buffer: the detector runs over
the whole block, then every sample is combined with the level stored at its index. -/
theorem DynamicsProcessorMono.process_zipWith (E : Ext α) (m : DynamicsProcessorMono α)
    (smpls : List α) (T r K atkMs rlsMs : α)
    (h : smpls.length ≤ m.lvlDetector.buffer.length) :
    ∃ det, m.lvlDetector.process E smpls atkMs rlsMs = .ok det ∧
      m.process E smpls T r K atkMs rlsMs =
        .ok ({ lvlDetector := det },
          List.zipWith (DynamicsProcessorMono.wet E T r K) smpls det.data) := by
  obtain ⟨det, h1, -⟩ := LevelDetector.process_fits E m.lvlDetector smpls atkMs rlsMs h
  have hl := LevelDetector.process_length E m.lvlDetector det smpls atkMs rlsMs h h1
  refine ⟨det, h1, ?_⟩
  unfold DynamicsProcessorMono.process
  rw [h1]
  simp only
  rw [DynamicsProcessorMono.loop_zipWith E det.data T r K smpls 0 (by
    simp only [LevelDetector.data, hl]
    omega)]
  simp

/-- On silence, from the floor, the spec's envelopes stay at the floor. -/
theorem specEnvelopes_silence (E : Ext α) (atk rls : α) (n : Nat) :
    specEnvelopes E atk rls MinDb MinDb (List.replicate n 0) = List.replicate n MinDb := by
  induction n with
  | zero => rfl
  | succ k ih =>
    have e : (MinDb : α) + specCoeff atk rls MinDb MinDb * (MinDb - MinDb) = MinDb := by
      rw [sub_self, mul_zero, add_zero]
    rw [List.replicate_succ, specEnvelopes]
    simp only [specLevel, if_true, e, ih, List.replicate_succ]

/-- Combining a constant block with levels that start with as many constant levels. -/
theorem zipWith_replicate_append {β γ δ : Type} (f : β → γ → δ) (a : β) (b : γ) (l : List γ)
    (n : Nat) :
    List.zipWith f (List.replicate n a) (List.replicate n b ++ l) = List.replicate n (f a b) := by
  induction n with
  | zero => simp
  | succ k ih => simp [List.replicate_succ, ih]

/-- The last element of a constant list, with the constant as the default. -/
theorem getLast?_replicate_getD {β : Type} (a : β) (n : Nat) :
    (List.replicate n a).getLast?.getD a = a := by
  induction n with
  | zero => rfl
  | succ k ih => rw [List.replicate_succ, List.getLast?_cons, Option.getD_some, ih]

/-- The gain below the knee. -/
theorem computeGainDb_below (x T r K : α) (h : x < T - K / 2) :
    computeGainDbDownwardsExpander x T r K = some ((r - 1) * (x - T)) := by
  rw [computeGainDbDownwardsExpander_eq, downwardsExpander_eq, if_pos h, Option.map_some']
  congr 1
  ring

/-- C7 (what the code does): on a block of `n ≤ blockSize` samples that are all exactly `0`, the
rectified level is `MinDb = -240` whatever `log10` is, the envelope of a freshly constructed and
prepared detector is `-240` at each of the `n` indices, never below, and stays the held
envelope; the gain computed from it is the expander's gain at level `-240`, which for
`-240 < T - K / 2` is `(r - 1) * (-240 - T)` dB (`0` dB when `r = 1`), and that is the gain the
channel's `process` applies to each sample. -/
theorem silence_floor (E : Ext α) (x0 sampleRate : α) (blockSize n : Nat)
    (atkMs rlsMs T r K : α) (hn : n ≤ blockSize) (hT : (-240 : α) < T - K / 2) :
    LevelDetector.rectDb E 0 = -240 ∧
    ∃ det, ((LevelDetector.ctor x0).prepare sampleRate blockSize).process E
        (List.replicate n 0) atkMs rlsMs = .ok det ∧
      det.data = List.replicate n (-240) ++ List.replicate (blockSize - n) 0 ∧
      (∀ lvl ∈ det.data.take n, (-240 : α) ≤ lvl) ∧
      det.env = -240 ∧
      (∀ lvl ∈ det.data.take n,
        computeGainDbDownwardsExpander lvl T r K = some ((r - 1) * (-240 - T))) ∧
      ((DynamicsProcessorMono.ctor x0).prepare sampleRate blockSize).process E
          (List.replicate n 0) T r K atkMs rlsMs =
        .ok ({ lvlDetector := det },
          List.replicate n (some (0 * dbToGain E ((r - 1) * (-240 - T))))) := by
  have hb : ((LevelDetector.ctor x0).prepare sampleRate blockSize).buffer
      = List.replicate blockSize 0 := by
    simp [LevelDetector.prepare, LevelDetector.ctor, vectorResize]
  have hlen : (List.replicate n (0 : α)).length ≤
      ((DynamicsProcessorMono.ctor x0).prepare sampleRate blockSize).lvlDetector.buffer.length := by
    show _ ≤ ((LevelDetector.ctor x0).prepare sampleRate blockSize).buffer.length
    rw [hb]
    simpa using hn
  obtain ⟨det, h1, h2⟩ := DynamicsProcessorMono.process_zipWith E
    ((DynamicsProcessorMono.ctor x0).prepare sampleRate blockSize) (List.replicate n 0)
    T r K atkMs rlsMs hlen
  change ((LevelDetector.ctor x0).prepare sampleRate blockSize).process E
    (List.replicate n 0) atkMs rlsMs = .ok det at h1
  obtain ⟨det', h3, h4, h5, -⟩ := LevelDetector.process_fits E
    ((LevelDetector.ctor x0).prepare sampleRate blockSize) (List.replicate n 0) atkMs rlsMs hlen
  rw [h1] at h3
  cases h3
  have henv : ((LevelDetector.ctor x0).prepare sampleRate blockSize).env = MinDb := rfl
  have hy : ((LevelDetector.ctor x0).prepare sampleRate blockSize).lp.y = MinDb := rfl
  have hdata : det.data = List.replicate n (-240) ++ List.replicate (blockSize - n) 0 := by
    show det.buffer = _
    rw [h4, henv, hy, specEnvelopes_silence, hb]
    simp [MinDb]
  have htake : det.data.take n = List.replicate n (-240) := by
    rw [hdata, List.take_left' (by simp)]
  refine ⟨by simp [LevelDetector.rectDb, MinDb], det, h1, hdata, ?_, ?_, ?_, ?_⟩
  · intro lvl hl
    rw [htake] at hl
    rw [(List.mem_replicate.mp hl).2]
  · rw [h5, henv, hy, specEnvelopes_silence]
    exact getLast?_replicate_getD _ n
  · intro lvl hl
    rw [htake] at hl
    rw [(List.mem_replicate.mp hl).2]
    exact computeGainDb_below _ T r K hT
  · rw [h2, hdata, zipWith_replicate_append]
    simp [DynamicsProcessorMono.wet, computeGainDb_below _ T r K hT]

/-- An instance of C7 on rationals: two silent samples, threshold `-20`, ratio `4`, knee `0`;
the envelope is `-240` twice and the gain applied is `(4 - 1) * (-240 - -20)` dB. -/
theorem silence_floor_witness :
    2 ≤ 2 ∧ (-240 : ℚ) < -20 - 0 / 2 ∧
    ∃ det, det.data = [-240, -240] ∧ det.env = -240 ∧
      ((DynamicsProcessorMono.ctor (0 : ℚ)).prepare 48000 2).process E0 [0, 0] (-20) 4 0 0 0 =
        .ok ({ lvlDetector := det },
          [some (0 * dbToGain E0 ((4 - 1) * (-240 - -20))),
           some (0 * dbToGain E0 ((4 - 1) * (-240 - -20)))]) := by
  obtain ⟨-, det, -, h2, -, h3, -, h4⟩ :=
    silence_floor E0 0 48000 2 2 0 0 (-20) 4 0 (le_refl 2) (by norm_num)
  exact ⟨le_refl 2, by norm_num, det, by simpa using h2, h3, by simpa using h4⟩

/-- C7 (the claim fails): two silent samples into a fresh detector prepared for two samples,
threshold `-20`, ratio `4`, knee `0`; the envelope is `-240` at both indices and the gain
computed from it is `-660` dB, not `0` dB. -/
theorem silence_gain_not_zero :
    ∃ det, ((LevelDetector.ctor (0 : ℚ)).prepare 48000 2).process E0 [0, 0] 0 0 = .ok det ∧
      det.data = [-240, -240] ∧
      computeGainDbDownwardsExpander (-240 : ℚ) (-20) 4 0 = some (-660) ∧
      ¬ ∀ lvl ∈ det.data, computeGainDbDownwardsExpander lvl (-20) 4 0 = some 0 := by
  obtain ⟨det, h1, h2, -⟩ := LevelDetector.process_fits E0
    ((LevelDetector.ctor (0 : ℚ)).prepare 48000 2) [0, 0] 0 0 (by
      simp [LevelDetector.prepare, LevelDetector.ctor, vectorResize])
  have hdata : det.data = [-240, -240] := by
    show det.buffer = _
    rw [h2]
    norm_num [specEnvelopes, specLevel, specCoeff, E0, MinDb, LevelDetector.prepare,
      LevelDetector.ctor, LowpassF.ctor, vectorResize]
  have hg : computeGainDbDownwardsExpander (-240 : ℚ) (-20) 4 0 = some (-660) := by
    rw [computeGainDb_below _ _ _ _ (by norm_num)]
    norm_num
  refine ⟨det, h1, hdata, hg, fun h => ?_⟩
  have h0 := h (-240) (by rw [hdata]; simp)
  rw [hg] at h0
  norm_num at h0

/-- With ratio 1, away from the point knee `0` and level equal to the threshold, the sample
written back is the dry sample. -/
theorem wet_ratio_one (E : Ext α) (hpow : E.pow 10 0 = 1) (T K dry lvl : α)
    (h : ¬ (K = 0 ∧ lvl = T)) :
    DynamicsProcessorMono.wet E T 1 K dry lvl = some dry := by
  unfold DynamicsProcessorMono.wet
  rw [computeGainDb_ratio_one, if_neg h]
  simp [dbToGain, hpow]

/-- Combining samples with levels by a function that returns the sample. -/
theorem zipWith_eq_map_some {β γ : Type} (f : β → γ → Option β)
    (hf : ∀ a b, f a b = some a) (smpls : List β) :
    ∀ l : List γ, smpls.length ≤ l.length → List.zipWith f smpls l = smpls.map some := by
  induction smpls with
  | nil => intro l _; simp
  | cons a rest ih =>
    intro l hl
    cases l with
    | nil => simp at hl
    | cons b t =>
      have ht : rest.length ≤ t.length := by simpa using hl
      simp [hf, ih t ht]

/-- With ratio 1 and a knee that is not zero, the channel's `process` on a block that fits in
the scratch buffer writes back every sample as it was. -/
theorem passthrough_of_knee_ne_zero (E : Ext α) (hpow : E.pow 10 0 = 1)
    (m : DynamicsProcessorMono α) (smpls : List α) (T K atkMs rlsMs : α) (hK : K ≠ 0)
    (h : smpls.length ≤ m.lvlDetector.buffer.length) :
    ∃ det, m.process E smpls T 1 K atkMs rlsMs = .ok ({ lvlDetector := det }, smpls.map some) := by
  obtain ⟨det, h1, h2⟩ := DynamicsProcessorMono.process_zipWith E m smpls T 1 K atkMs rlsMs h
  have hl := LevelDetector.process_length E m.lvlDetector det smpls atkMs rlsMs h h1
  refine ⟨det, ?_⟩
  rw [h2, zipWith_eq_map_some _ (fun dry lvl => wet_ratio_one E hpow T K dry lvl
    (fun hc => hK hc.1)) smpls det.data (by
      show smpls.length ≤ det.buffer.length
      rw [hl]
      exact h)]

/-- C3 (the code misses a case): with ratio `1` and knee `0` the gain at a level equal to the
threshold is no number, not `0` dB; a fresh channel prepared for one sample, fed the sample `1`
(level `0` dB) with threshold `0`, ratio `1`, knee `0` and instantaneous attack, holds the
envelope `0` and writes back no number instead of the input sample `1`. -/
theorem passthrough_fails_at_threshold :
    computeGainDbDownwardsExpander (-20 : ℚ) (-20) 1 0 = none ∧
    ∃ det, det.data = [0] ∧
      ((DynamicsProcessorMono.ctor (0 : ℚ)).prepare 48000 1).process E0 [1] 0 1 0 0 0 =
        .ok ({ lvlDetector := det }, [none]) := by
  refine ⟨?_, ?_⟩
  · rw [computeGainDb_ratio_one]
    simp
  · obtain ⟨det, h1, h2⟩ := DynamicsProcessorMono.process_zipWith E0
      ((DynamicsProcessorMono.ctor (0 : ℚ)).prepare 48000 1) [1] 0 1 0 0 0 (by
        simp [DynamicsProcessorMono.prepare, DynamicsProcessorMono.ctor, LevelDetector.prepare,
          LevelDetector.ctor, vectorResize])
    obtain ⟨det', h3, h4, -⟩ := LevelDetector.process_fits E0
      ((DynamicsProcessorMono.ctor (0 : ℚ)).prepare 48000 1).lvlDetector [1] 0 0 (by
        simp [DynamicsProcessorMono.prepare, DynamicsProcessorMono.ctor, LevelDetector.prepare,
          LevelDetector.ctor, vectorResize])
    rw [h1] at h3
    cases h3
    have hdata : det.data = [0] := by
      show det.buffer = _
      rw [h4]
      norm_num [specEnvelopes, specLevel, specCoeff, E0, MinDb, LevelDetector.prepare,
        LevelDetector.ctor, LowpassF.ctor, vectorResize, DynamicsProcessorMono.prepare,
        DynamicsProcessorMono.ctor]
    refine ⟨det, hdata, ?_⟩
    rw [h2, hdata]
    simp [DynamicsProcessorMono.wet, computeGainDb_ratio_one]


/-! ### All channels -/

/-- A makeup gain of `1` leaves every sample as it is. -/
theorem applyMakeUp_one (samples : List (List (Option α))) :
    DynamicsProcessor.applyMakeUp 1 samples = samples := by
  unfold DynamicsProcessor.applyMakeUp
  simp only [mul_one, Option.map_id', List.map_id']

/-- The channel's `process` on a block that fits in the scratch buffer returns. -/
theorem DynamicsProcessorMono.process_returns (E : Ext α) (m : DynamicsProcessorMono α)
    (smpls : List α) (T r K atkMs rlsMs : α)
    (h : smpls.length ≤ m.lvlDetector.buffer.length) :
    ∃ res, m.process E smpls T r K atkMs rlsMs = .ok res := by
  obtain ⟨det, -, h2⟩ := DynamicsProcessorMono.process_zipWith E m smpls T r K atkMs rlsMs h
  exact ⟨_, h2⟩

/-- Whatever the buffers, the prior state and the parameters are, `process` with a makeup of
`makeupDb` is `process` with a makeup of `0` dB with every output sample multiplied by
`10 ^ (makeupDb / 20)`; a call that runs into a memory fault does so for every makeup. -/
theorem process_makeup_eq (E : Ext α) (hpow : E.pow 10 0 = 1) (p : DynamicsProcessor α)
    (samples : List (List α)) (T r K atkMs rlsMs makeupDb : α) :
    p.process E samples T r K atkMs rlsMs makeupDb =
      match p.process E samples T r K atkMs rlsMs 0 with
      | .error f => .error f
      | .ok q => .ok (q.1, q.2.map fun smpls => smpls.map fun smpl =>
          smpl.map fun v => v * E.pow 10 (makeupDb / 20)) := by
  have h0 : dbToGain E 0 = 1 := by
    unfold dbToGain
    rw [zero_div, hpow]
  unfold DynamicsProcessor.process
  cases DynamicsProcessor.loop E T r K atkMs rlsMs p.dyns 0 samples with
  | error f => rfl
  | ok q =>
    simp only [h0, applyMakeUp_one]
    rfl

/-- The sample written back, in one step: the dry sample times `10 ^ (gain / 20)`. -/
theorem wet_eq (E : Ext α) (T r K dry lvl : α) :
    DynamicsProcessorMono.wet E T r K dry lvl =
      (computeGainDbDownwardsExpander lvl T r K).map fun g => dry * E.pow 10 (g / 20) := by
  unfold DynamicsProcessorMono.wet dbToGain
  cases computeGainDbDownwardsExpander lvl T r K <;> rfl

/-- The channel loop from channel `ch` on, when the channels still to come exist in `dyns` and
their blocks fit in their scratch buffers: channels below `ch` are left alone, and channel
`ch + i` is replaced by what its own `process` leaves, its block by what that writes back. -/
theorem DynamicsProcessor.loop_channels_fit (E : Ext α) (T r K atkMs rlsMs : α)
    (samples : List (List α)) :
    ∀ (dyns : List (DynamicsProcessorMono α)) (ch : Nat),
      ch + samples.length ≤ dyns.length →
      (∀ (i : Nat) (m : DynamicsProcessorMono α) (c : List α),
        dyns[ch + i]? = some m → samples[i]? = some c →
        c.length ≤ m.lvlDetector.buffer.length) →
      ∃ dyns' outs,
        DynamicsProcessor.loop E T r K atkMs rlsMs dyns ch samples = .ok (dyns', outs) ∧
        outs.length = samples.length ∧
        (∀ j, j < ch → dyns'[j]? = dyns[j]?) ∧
        ∀ (i : Nat) (c : List α), samples[i]? = some c →
          ∃ m res, dyns[ch + i]? = some m ∧
            m.process E c T r K atkMs rlsMs = .ok res ∧
            dyns'[ch + i]? = some res.1 ∧ outs[i]? = some res.2 := by
  induction samples with
  | nil =>
    intro dyns ch _ _
    refine ⟨dyns, [], rfl, rfl, fun _ _ => rfl, fun i c hc => ?_⟩
    simp at hc
  | cons c rest ih =>
    intro dyns ch hlen hfit
    have hch : ch < dyns.length := by
      simp only [List.length_cons] at hlen
      omega
    have hm : dyns[ch]? = some dyns[ch] := List.getElem?_eq_getElem hch
    obtain ⟨res, hres⟩ := DynamicsProcessorMono.process_returns E dyns[ch] c T r K atkMs rlsMs
      (hfit 0 dyns[ch] c hm (by simp))
    have hne : ∀ k, (dyns.set ch res.1)[ch + 1 + k]? = dyns[ch + (k + 1)]? := by
      intro k
      rw [List.getElem?_set_ne (by omega)]
      congr 1
      omega
    obtain ⟨dyns', outs, hl, hol, hframe, hpt⟩ := ih (dyns.set ch res.1) (ch + 1)
      (by
        simp only [List.length_set]
        simp only [List.length_cons] at hlen
        omega)
      (fun i m c' h1 h2 => hfit (i + 1) m c' (by rw [← hne]; exact h1) (by simpa using h2))
    refine ⟨dyns', res.2 :: outs, ?_, by simp [hol], fun j hj => ?_, fun i c' hc' => ?_⟩
    · rw [DynamicsProcessor.loop, hm]
      simp only [hres, hl]
    · rw [hframe j (by omega), List.getElem?_set_ne (by omega)]
    · cases i with
      | zero =>
        have hcc : c = c' := by simpa using hc'
        subst hcc
        refine ⟨dyns[ch], res, hm, hres, ?_, by simp⟩
        rw [Nat.add_zero, hframe ch (by omega), List.getElem?_set_self hch]
      | succ k =>
        obtain ⟨m, res', h1, h2, h3, h4⟩ := hpt k c' (by simpa using hc')
        refine ⟨m, res', by rw [← hne]; exact h1, h2, ?_, by simpa using h4⟩
        have e : ch + (k + 1) = ch + 1 + k := by omega
        rw [e]
        exact h3

/-- C8: for a call within the caller contract (no more channel blocks than `dyns` has channels,
every block fitting in its channel's scratch buffer), whatever the samples, the prior state and
the parameters are and given `pow(10, 0) = 1`: `process` with a makeup of `makeupDb` and with a
makeup of `0` dB both return and leave the same state, which for each active channel is what the
channel's detector leaves; each active channel gets one output sample per input sample; the
makeup-0 output sample is the dynamics-only sample `dry * 10 ^ (gain / 20)` for the gain of the
level stored at its index; and the output sample is the makeup-0 output sample multiplied by
`10 ^ (makeupDb / 20)`. -/
theorem makeup_scales_output (E : Ext α) (hpow : E.pow 10 0 = 1) (p : DynamicsProcessor α)
    (samples : List (List α)) (T r K atkMs rlsMs makeupDb : α)
    (hch : samples.length ≤ p.dyns.length)
    (hfit : ∀ (ch : Nat) (m : DynamicsProcessorMono α) (smpls : List α),
      p.dyns[ch]? = some m → samples[ch]? = some smpls →
      smpls.length ≤ m.lvlDetector.buffer.length) :
    ∃ (st : DynamicsProcessor α) (out0 out : List (List (Option α))),
      p.process E samples T r K atkMs rlsMs 0 = .ok (st, out0) ∧
      p.process E samples T r K atkMs rlsMs makeupDb = .ok (st, out) ∧
      out0.length = samples.length ∧ out.length = samples.length ∧
      ∀ (ch : Nat) (smpls : List α), samples[ch]? = some smpls →
        ∃ (m : DynamicsProcessorMono α) (det : LevelDetector α) (o0 o : List (Option α)),
          p.dyns[ch]? = some m ∧
          m.lvlDetector.process E smpls atkMs rlsMs = .ok det ∧
          st.dyns[ch]? = some { lvlDetector := det } ∧
          out0[ch]? = some o0 ∧ out[ch]? = some o ∧
          o0.length = smpls.length ∧ o.length = smpls.length ∧
          ∀ (s : Nat) (dry : α), smpls[s]? = some dry →
            ∃ lvl, det.data[s]? = some lvl ∧
              o0[s]? = some ((computeGainDbDownwardsExpander lvl T r K).map
                fun g => dry * E.pow 10 (g / 20)) ∧
              o[s]? = o0[s]?.map fun smpl => smpl.map fun v => v * E.pow 10 (makeupDb / 20) := by
  have h0 : dbToGain E 0 = 1 := by
    unfold dbToGain
    rw [zero_div, hpow]
  obtain ⟨dyns', outs, hl, hol, -, hpt⟩ := DynamicsProcessor.loop_channels_fit E T r K atkMs rlsMs
    samples p.dyns 0 (by omega) (fun i m smpls h1 h2 => hfit i m smpls (by simpa using h1) h2)
  refine ⟨{ dyns := dyns' }, outs,
    DynamicsProcessor.applyMakeUp (E.pow 10 (makeupDb / 20)) outs, ?_, ?_, hol, ?_, ?_⟩
  · unfold DynamicsProcessor.process
    rw [hl]
    simp only [h0, applyMakeUp_one]
  · unfold DynamicsProcessor.process
    rw [hl]
    rfl
  · simp [DynamicsProcessor.applyMakeUp, hol]
  · intro ch smpls hc
    obtain ⟨m, res, hm, hres, hd, ho⟩ := hpt ch smpls hc
    rw [Nat.zero_add] at hm hd
    have hf := hfit ch m smpls hm hc
    obtain ⟨det, h1, h2⟩ := DynamicsProcessorMono.process_zipWith E m smpls T r K atkMs rlsMs hf
    have hdl : smpls.length ≤ det.data.length := by
      show smpls.length ≤ det.buffer.length
      rw [LevelDetector.process_length E m.lvlDetector det smpls atkMs rlsMs hf h1]
      exact hf
    rw [hres] at h2
    cases h2
    refine ⟨m, det, List.zipWith (DynamicsProcessorMono.wet E T r K) smpls det.data,
      (List.zipWith (DynamicsProcessorMono.wet E T r K) smpls det.data).map
        (fun smpl => smpl.map fun v => v * E.pow 10 (makeupDb / 20)),
      hm, h1, hd, ho, ?_, ?_, ?_, ?_⟩
    · simp only [DynamicsProcessor.applyMakeUp, List.getElem?_map, ho, Option.map_some']
    · rw [List.length_zipWith]
      omega
    · rw [List.length_map, List.length_zipWith]
      omega
    · intro s dry hs
      have hsl : s < smpls.length := by
        rcases List.getElem?_eq_some.mp hs with ⟨h, -⟩
        exact h
      have hlv : det.data[s]? = some det.data[s] := List.getElem?_eq_getElem (by omega)
      refine ⟨det.data[s], hlv, ?_, ?_⟩
      · rw [List.getElem?_zipWith, hs, hlv]
        simp only [wet_eq]
      · rw [List.getElem?_map]

/-- The blocks written back by a fresh processor prepared for one sample on the blocks `[1]` and
`[0]` with threshold `-20`, ratio `4`, knee `0` and instantaneous coefficients: `[1]` and `[0]`
for a makeup of `0` dB, `[10]` and `[0]` for a makeup of `20` dB. -/
theorem process_fresh_values :
    Except.map Prod.snd (((DynamicsProcessor.ctor (0 : ℚ)).prepare 48000 1).process E0
        [[1], [0]] (-20) 4 0 0 0 0) = .ok [[some 1], [some 0]] ∧
    Except.map Prod.snd (((DynamicsProcessor.ctor (0 : ℚ)).prepare 48000 1).process E0
        [[1], [0]] (-20) 4 0 0 0 20) = .ok [[some 10], [some 0]] := by
  constructor <;>
  norm_num [Except.map, DynamicsProcessor.process, DynamicsProcessor.loop,
    DynamicsProcessor.applyMakeUp, DynamicsProcessor.ctor, DynamicsProcessor.prepare,
    DynamicsProcessorMono.process, DynamicsProcessorMono.loop, DynamicsProcessorMono.wet,
    DynamicsProcessorMono.ctor, DynamicsProcessorMono.prepare, LevelDetector.process,
    LevelDetector.loop, LevelDetector.synthesize, LevelDetector.rectDb, LevelDetector.data,
    LevelDetector.prepare, LevelDetector.ctor, LowpassF.ctor, LowpassF.setX, LowpassF.call,
    vectorResize, gainToDb, dbToGain, MinDb, E0, computeGainDbDownwardsExpander,
    computeGainDb, downwardsExpander, fdiv]

/-- The scratch buffer of a fresh channel after `prepare`. -/
theorem DynamicsProcessorMono.length_prepare_ctor (x0 sampleRate : α) (blockSize : Nat) :
    ((DynamicsProcessorMono.ctor x0).prepare sampleRate blockSize).lvlDetector.buffer.length
      = blockSize :=
  LevelDetector.length_prepare _ _ _

/-- An instance of C8 on rationals: a fresh processor prepared for one sample, the blocks `[1]`
and `[0]`, threshold `-20`, ratio `4`, knee `0`; with a makeup of `0` dB the blocks written back
are `[1]` and `[0]`, with a makeup of `20` dB they are `[10]` and `[0]`, and the state left is
the same. -/
theorem makeup_scales_output_witness :
    E0.pow 10 0 = 1 ∧
    ([[1], [0]] : List (List ℚ)).length
      ≤ ((DynamicsProcessor.ctor (0 : ℚ)).prepare 48000 1).dyns.length ∧
    (∀ (ch : Nat) (m : DynamicsProcessorMono ℚ) (smpls : List ℚ),
      ((DynamicsProcessor.ctor (0 : ℚ)).prepare 48000 1).dyns[ch]? = some m →
      ([[1], [0]] : List (List ℚ))[ch]? = some smpls →
      smpls.length ≤ m.lvlDetector.buffer.length) ∧
    ∃ st,
      ((DynamicsProcessor.ctor (0 : ℚ)).prepare 48000 1).process E0 [[1], [0]] (-20) 4 0 0 0 0
        = .ok (st, [[some 1], [some 0]]) ∧
      ((DynamicsProcessor.ctor (0 : ℚ)).prepare 48000 1).process E0 [[1], [0]] (-20) 4 0 0 0 20
        = .ok (st, [[some 10], [some 0]]) := by
  have hpow : E0.pow 10 0 = 1 := by norm_num [E0]
  have hch : ([[1], [0]] : List (List ℚ)).length
      ≤ ((DynamicsProcessor.ctor (0 : ℚ)).prepare 48000 1).dyns.length := by
    simp [DynamicsProcessor.ctor, DynamicsProcessor.prepare]
  have hfit : ∀ (ch : Nat) (m : DynamicsProcessorMono ℚ) (smpls : List ℚ),
      ((DynamicsProcessor.ctor (0 : ℚ)).prepare 48000 1).dyns[ch]? = some m →
      ([[1], [0]] : List (List ℚ))[ch]? = some smpls →
      smpls.length ≤ m.lvlDetector.buffer.length := by
    intro ch m smpls h1 h2
    have hm : m = (DynamicsProcessorMono.ctor (0 : ℚ)).prepare 48000 1 := by
      have := List.getElem?_mem h1
      simpa [DynamicsProcessor.ctor, DynamicsProcessor.prepare] using this
    have hs : smpls.length = 1 := by
      have := List.getElem?_mem h2
      simp only [List.mem_cons, List.mem_singleton, List.not_mem_nil, or_false] at this
      rcases this with rfl | rfl <;> rfl
    rw [hm, DynamicsProcessorMono.length_prepare_ctor, hs]
  obtain ⟨st, out0, out, h0, h1, -⟩ := makeup_scales_output E0 hpow
    ((DynamicsProcessor.ctor (0 : ℚ)).prepare 48000 1) [[1], [0]] (-20) 4 0 0 0 20 hch hfit
  obtain ⟨e0, e1⟩ := process_fresh_values
  rw [h0] at e0
  rw [h1] at e1
  simp only [Except.map, Except.ok.injEq] at e0 e1
  subst e0 e1
  exact ⟨hpow, hch, hfit, st, h0, h1⟩

/-- Two channels whose own `process` succeeds: the processor's `process` leaves the two channel
results side by side and scales both blocks by the makeup gain. -/
theorem DynamicsProcessor.process_stereo (E : Ext α) (a0 a1 : DynamicsProcessorMono α)
    (c0 c1 : List α) (T r K atkMs rlsMs makeupDb : α)
    (r0 r1 : DynamicsProcessorMono α × List (Option α))
    (h0 : a0.process E c0 T r K atkMs rlsMs = .ok r0)
    (h1 : a1.process E c1 T r K atkMs rlsMs = .ok r1) :
    DynamicsProcessor.process E { dyns := [a0, a1] } [c0, c1] T r K atkMs rlsMs makeupDb =
      .ok ({ dyns := [r0.1, r1.1] },
        DynamicsProcessor.applyMakeUp (dbToGain E makeupDb) [r0.2, r1.2]) := by
  simp [DynamicsProcessor.process, DynamicsProcessor.loop, h0, h1]

/-- C9: with two channels, take a channel with prior state `a` and block `c`, and two choices
`(other, cOther)`, `(other', cOther')` of the other channel's prior state and block, every block
fitting in its scratch buffer.  The runs return, and the state `m` left for the channel and its
output block `o` are the same in both runs, whether the channel is channel 1 or channel 0. -/
theorem channels_independent (E : Ext α) (a other other' : DynamicsProcessorMono α)
    (c cOther cOther' : List α) (T r K atkMs rlsMs makeupDb : α)
    (ha : c.length ≤ a.lvlDetector.buffer.length)
    (ho : cOther.length ≤ other.lvlDetector.buffer.length)
    (ho' : cOther'.length ≤ other'.lvlDetector.buffer.length) :
    ∃ (m mOther mOther' : DynamicsProcessorMono α) (o oOther oOther' : List (Option α)),
      DynamicsProcessor.process E { dyns := [other, a] } [cOther, c] T r K atkMs rlsMs makeupDb
        = .ok ({ dyns := [mOther, m] }, [oOther, o]) ∧
      DynamicsProcessor.process E { dyns := [other', a] } [cOther', c] T r K atkMs rlsMs makeupDb
        = .ok ({ dyns := [mOther', m] }, [oOther', o]) ∧
      DynamicsProcessor.process E { dyns := [a, other] } [c, cOther] T r K atkMs rlsMs makeupDb
        = .ok ({ dyns := [m, mOther] }, [o, oOther]) ∧
      DynamicsProcessor.process E { dyns := [a, other'] } [c, cOther'] T r K atkMs rlsMs makeupDb
        = .ok ({ dyns := [m, mOther'] }, [o, oOther']) := by
  obtain ⟨ra, hra⟩ := DynamicsProcessorMono.process_returns E a c T r K atkMs rlsMs ha
  obtain ⟨ro, hro⟩ := DynamicsProcessorMono.process_returns E other cOther T r K atkMs rlsMs ho
  obtain ⟨ro', hro'⟩ :=
    DynamicsProcessorMono.process_returns E other' cOther' T r K atkMs rlsMs ho'
  refine ⟨ra.1, ro.1, ro'.1,
    ra.2.map (fun smpl => smpl.map fun v => v * dbToGain E makeupDb),
    ro.2.map (fun smpl => smpl.map fun v => v * dbToGain E makeupDb),
    ro'.2.map (fun smpl => smpl.map fun v => v * dbToGain E makeupDb), ?_, ?_, ?_, ?_⟩
  · rw [DynamicsProcessor.process_stereo E other a cOther c T r K atkMs rlsMs makeupDb ro ra
      hro hra]
    rfl
  · rw [DynamicsProcessor.process_stereo E other' a cOther' c T r K atkMs rlsMs makeupDb ro' ra
      hro' hra]
    rfl
  · rw [DynamicsProcessor.process_stereo E a other c cOther T r K atkMs rlsMs makeupDb ra ro
      hra hro]
    rfl
  · rw [DynamicsProcessor.process_stereo E a other' c cOther' T r K atkMs rlsMs makeupDb ra ro'
      hra hro']
    rfl

/-- An instance of C9 on rationals: a silent channel next to a loud channel and next to
another silent channel with a longer scratch buffer. -/
theorem channels_independent_witness :
    ([0] : List ℚ).length
      ≤ ((DynamicsProcessorMono.ctor (0 : ℚ)).prepare 48000 1).lvlDetector.buffer.length ∧
    ([1] : List ℚ).length
      ≤ ((DynamicsProcessorMono.ctor (0 : ℚ)).prepare 48000 1).lvlDetector.buffer.length ∧
    ([0] : List ℚ).length
      ≤ ((DynamicsProcessorMono.ctor (0 : ℚ)).prepare 48000 2).lvlDetector.buffer.length ∧
    ∃ (m mOther mOther' : DynamicsProcessorMono ℚ) (o oOther oOther' : List (Option ℚ)),
      DynamicsProcessor.process E0
        { dyns := [(DynamicsProcessorMono.ctor 0).prepare 48000 1,
                   (DynamicsProcessorMono.ctor 0).prepare 48000 1] }
        [[1], [0]] (-20) 4 0 0 0 20 = .ok ({ dyns := [mOther, m] }, [oOther, o]) ∧
      DynamicsProcessor.process E0
        { dyns := [(DynamicsProcessorMono.ctor 0).prepare 48000 2,
                   (DynamicsProcessorMono.ctor 0).prepare 48000 1] }
        [[0], [0]] (-20) 4 0 0 0 20 = .ok ({ dyns := [mOther', m] }, [oOther', o]) ∧
      DynamicsProcessor.process E0
        { dyns := [(DynamicsProcessorMono.ctor 0).prepare 48000 1,
                   (DynamicsProcessorMono.ctor 0).prepare 48000 1] }
        [[0], [1]] (-20) 4 0 0 0 20 = .ok ({ dyns := [m, mOther] }, [o, oOther]) ∧
      DynamicsProcessor.process E0
        { dyns := [(DynamicsProcessorMono.ctor 0).prepare 48000 1,
                   (DynamicsProcessorMono.ctor 0).prepare 48000 2] }
        [[0], [0]] (-20) 4 0 0 0 20 = .ok ({ dyns := [m, mOther'] }, [o, oOther']) :=
  have h1 : ([0] : List ℚ).length
      ≤ ((DynamicsProcessorMono.ctor (0 : ℚ)).prepare 48000 1).lvlDetector.buffer.length := by
    rw [DynamicsProcessorMono.length_prepare_ctor]; simp
  have h2 : ([1] : List ℚ).length
      ≤ ((DynamicsProcessorMono.ctor (0 : ℚ)).prepare 48000 1).lvlDetector.buffer.length := by
    rw [DynamicsProcessorMono.length_prepare_ctor]; simp
  have h3 : ([0] : List ℚ).length
      ≤ ((DynamicsProcessorMono.ctor (0 : ℚ)).prepare 48000 2).lvlDetector.buffer.length := by
    rw [DynamicsProcessorMono.length_prepare_ctor]; simp
  ⟨h1, h2, h3, channels_independent E0 _ _ _ [0] [1] [0] (-20) 4 0 0 0 20 h1 h2 h3⟩

end dsp
